import Mathlib

/-
Verification of the schema-retrieval, DMF-catalog and Cortex-description
logic of the DQ_Analysis_Tool repository, as a shallow embedding.

Embedding conventions:
* Python strings are Lean `String` (a list of characters); operations that
  Python performs on str (strip, lower, substring test, format) are embedded
  as executable functions on the underlying character lists, faithful for
  the ASCII inputs the program manipulates.
* The sentence-transformer embedding plus cosine similarity is an external,
  deterministic function of the chunk text; it is abstracted as a parameter
  `sim : String -> Int` giving the similarity of each chunk to the fixed
  query (the similarity a chunk receives depends only on its text, since
  the model encodes texts deterministically).
* `np.argsort` (default kind) behaves as a stable ascending sort on the
  small index arrays this program produces; it is embedded as a stable
  ascending insertion sort on the index list.
* Python `sorted(..., reverse=True)` is a stable descending sort; embedded
  as a stable descending insertion sort.
* The fallible `filter_schema` returns `Except String String`: `raise
  ValueError` becomes `Except.error`.
-/

namespace DQTool

/-- Python whitespace class (the ASCII characters matched by the regex
class used in `re.split` in `filter_schema`, and stripped by `str.strip`). -/
def pyIsSpace (c : Char) : Bool :=
  c == ' ' || c == '\t' || c == '\n' || c == '\r' || c == '\x0B' || c == '\x0C'

/-- Python `str.strip()` on the character list: drop whitespace from both ends. -/
def pyStripL (l : List Char) : List Char :=
  ((l.dropWhile pyIsSpace).reverse.dropWhile pyIsSpace).reverse

/-- Python `str.strip()` (`chunk.strip()` in `filter_schema`). -/
def pyStrip (s : String) : String :=
  String.mk (pyStripL s.data)

/-- Python `str.lower()` on one character (ASCII case fold, as used by
`score_schema` for case-insensitive matching). -/
def pyLowerChar (c : Char) : Char :=
  if 'A' ≤ c && c ≤ 'Z' then Char.ofNat (c.toNat + 32) else c

/-- Python `str.lower()` (ASCII inputs). -/
def pyLower (s : String) : String :=
  String.mk (s.data.map pyLowerChar)

/-- Helper for the blank-line separator of `re.split` in `filter_schema`:
after an initial newline has been consumed, the regex consumes a greedy
whitespace run that must end with a final newline.  `matchRun l` returns
the suffix of `l` after the last newline of the maximal whitespace run at
the head of `l`, or `none` when that run contains no newline (no match). -/
def matchRun : List Char → Option (List Char)
  | [] => none
  | c :: rest =>
    if c == '\n' then
      match matchRun rest with
      | some r => some r
      | none => some rest
    else if pyIsSpace c then matchRun rest
    else none

/-- Leftmost match of the blank-line separator regex at the head of the
list: a newline, then a greedy whitespace run ending in a final newline.
Returns the remainder after the match. -/
def matchSep : List Char → Option (List Char)
  | '\n' :: rest => matchRun rest
  | _ => none

/-- Scanner for `re.split` on the blank-line separator: at each position,
split if the separator matches, otherwise keep the character in the current
piece.  `fuel` bounds the recursion (each step consumes at least one
character, so `fuel = length` is enough). -/
def splitAux : Nat → List Char → List Char → List (List Char)
  | _, acc, [] => [acc.reverse]
  | 0, acc, l => [acc.reverse ++ l]
  | fuel + 1, acc, c :: rest =>
    match matchSep (c :: rest) with
    | some r => acc.reverse :: splitAux fuel [] r
    | none => splitAux fuel (c :: acc) rest

/-- Python `re.split` of the schema text on blank-line boundaries, as
performed by `filter_schema`. -/
def pySplitBlankLines (s : String) : List String :=
  (splitAux s.data.length [] s.data).map String.mk

/-- The chunk list built by `filter_schema`: split on blank-line
boundaries, strip each piece, keep the non-empty ones. -/
def schemaChunks (schema_text : String) : List String :=
  ((pySplitBlankLines schema_text).map pyStrip).filter (fun c => c != "")

/-- Python substring test `needle in hay` on character lists. -/
def pyContains (needle : List Char) : List Char → Bool
  | [] => needle.isEmpty
  | c :: t => needle.isPrefixOf (c :: t) || pyContains needle t

/-- Python `needle in hay` on strings. -/
def inStr (needle hay : String) : Bool :=
  pyContains needle.data hay.data

/-- `SnowflakeSchemaDescriber.score_schema`: add 1 for every input
parameter that occurs case-insensitively as a substring of the schema
string. -/
def score_schema (schema_str : String) (input_params : List String) : Nat :=
  input_params.foldl
    (fun score param =>
      if inStr (pyLower param) (pyLower schema_str) then score + 1 else score) 0

/-- One step of the stable ascending insertion sort used to embed
`np.argsort`: insert index `i` before the first index of equal or larger
key.  In `filter_schema` all indices already in the list come after `i`
in the original order, so this placement is the stable one. -/
def insertAsc (key : Nat → Int) (i : Nat) : List Nat → List Nat
  | [] => [i]
  | j :: l => if key i ≤ key j then i :: j :: l else j :: insertAsc key i l

/-- Stable ascending insertion sort of an index list by `key`. -/
def argsortAux (key : Nat → Int) : List Nat → List Nat
  | [] => []
  | i :: l => insertAsc key i (argsortAux key l)

/-- `np.argsort(similarities)`: the indices `0..n-1` stably sorted by
ascending key. -/
def argsort (key : Nat → Int) (n : Nat) : List Nat :=
  argsortAux key (List.range n)

/-- `np.argsort(similarities)[-top_n:][::-1]` with `top_n = min 5 n`:
the last `min 5 n` entries of the ascending argsort, reversed. -/
def topIndices (key : Nat → Int) (n : Nat) : List Nat :=
  ((argsort key n).drop ((argsort key n).length - min 5 n)).reverse

/-- `candidate_schemas = [schema_chunks[i] for i in top_indices_semantic]`
in `filter_schema`, with the similarity of a chunk given by `sim` applied
to its text. -/
def candidateSchemas (sim : String → Int) (chunks : List String) : List String :=
  (topIndices (fun i => sim (chunks.getD i "")) chunks.length).map
    (fun i => chunks.getD i "")

/-- One step of the stable descending insertion sort used to embed Python
`sorted(..., reverse=True)`: `a` goes before the first element whose key
is at most `key a`, so equal keys keep their original relative order. -/
def insertDesc {α : Type} (key : α → Nat) (a : α) : List α → List α
  | [] => [a]
  | b :: l => if key b ≤ key a then a :: b :: l else b :: insertDesc key a l

/-- Stable descending insertion sort by `key`, the embedding of Python
`sorted(candidate_schemas, key=..., reverse=True)`. -/
def sortDesc {α : Type} (key : α → Nat) : List α → List α
  | [] => []
  | a :: l => insertDesc key a (sortDesc key l)

/-- `ranked_schemas` in `filter_schema`: the candidate list re-ranked by
descending keyword-coverage score (stable). -/
def rankedSchemas (table_name : String) (sim : String → Int)
    (chunks : List String) : List String :=
  sortDesc (fun s => score_schema s [table_name]) (candidateSchemas sim chunks)

/-- `SnowflakeSchemaDescriber.filter_schema`: split the schema text into
chunks, raise on an empty chunk list, rank the top `min 5 n` chunks by
descending similarity, re-rank them by keyword score, and return the
first.  The `none` branch of `head?` models the Python `IndexError` that
indexing an empty list would raise; it is provably unreachable. -/
def filter_schema (table_name schema_text : String)
    (sim : String → Int) : Except String String :=
  if (schemaChunks schema_text).isEmpty then
    Except.error "Schema text is empty or not formatted correctly with [SEP]."
  else
    match (rankedSchemas table_name sim (schemaChunks schema_text)).head? with
    | some best => Except.ok best
    | none => Except.error "IndexError: list index out of range"

/-- `get_dmf_functions` from dmf_definitions.py: the ordered mapping from
metric names to SQL fragment templates. -/
def get_dmf_functions : List (String × String) :=
  [("ROW_COUNT", "COUNT(*)"),
   ("NULL_COUNT", "COUNT_IF({column} IS NULL)"),
   ("NOT_NULL_COUNT", "COUNT_IF({column} IS NOT NULL)"),
   ("UNIQUE_COUNT", "COUNT(DISTINCT {column})"),
   ("DUPLICATE_COUNT", "COUNT({column}) - COUNT(DISTINCT {column})"),
   ("AVERAGE", "AVG({column})"),
   ("SUM", "SUM({column})"),
   ("MIN", "MIN({column})"),
   ("MAX", "MAX({column})"),
   ("STDDEV", "STDDEV({column})"),
   ("MIN_LENGTH", "MIN(LENGTH({column}))"),
   ("MAX_LENGTH", "MAX(LENGTH({column}))"),
   ("AVG_LENGTH", "AVG(LENGTH({column}))")]

/-- Number of occurrences of `pat` in `s`: the count of positions of `s`
at which `pat` starts. -/
def countOcc (pat s : String) : Nat :=
  (List.range s.data.length).countP (fun i => pat.data.isPrefixOf (s.data.drop i))

/-- Replace every occurrence of `pat` (non-empty) by `rep`, scanning left
to right; `fuel = length` suffices since each step consumes a character. -/
def replaceAux (pat rep : List Char) : Nat → List Char → List Char
  | _, [] => []
  | 0, l => l
  | fuel + 1, c :: t =>
    if pat.isPrefixOf (c :: t) then
      rep ++ replaceAux pat rep fuel ((c :: t).drop pat.length)
    else c :: replaceAux pat rep fuel t

/-- Python `template.format(column=col)` for the DMF templates, whose only
replacement field is the column placeholder: every occurrence of the
placeholder is replaced by `col`. -/
def pyFormatColumn (template col : String) : String :=
  String.mk (replaceAux "{column}".data col.data template.data.length template.data)

/-- The DMF fragment built by `show_dmf_controls` in app.py: if the
template needs a column it substitutes the double-quoted column name,
otherwise the template is used as is. -/
def buildDmfFragment (template col : String) : String :=
  if inStr "{column}" template then
    pyFormatColumn template ("\"" ++ col ++ "\"")
  else template

/-- Dictionary lookup `dmf_functions[name]`. -/
def dmfLookup (name : String) : Option String :=
  (get_dmf_functions.find? (fun p => p.1 == name)).map (fun p => p.2)

/-- Outcome of the Cortex completion call issued by `describe_with_cortex`:
the cursor fetch succeeds (returning `None` or a row), or the execute
raises a warehouse `ProgrammingError`, or it raises some other exception. -/
inductive CortexOutcome : Type
  | success (result : Option (List String))
  | programmingError (details : String)
  | otherError (details : String)

/-- `SnowflakeSchemaDescriber.describe_with_cortex`, given whether a
connection exists and the outcome of the completion call.  A falsy fetch
result (no row, or an empty row) yields the no-response message; a truthy
row yields its first cell; the two exception paths yield their distinct
messages. -/
def describe_with_cortex (hasConn : Bool) (outcome : CortexOutcome) : String :=
  if !hasConn then "Cannot describe table: No Snowflake connection."
  else
    match outcome with
    | CortexOutcome.success (some (cell :: _)) => cell
    | CortexOutcome.success _ =>
        "Error: No response received from Snowflake Cortex."
    | CortexOutcome.programmingError e =>
        "Error executing query. Does the role have USAGE on the SNOWFLAKE.CORTEX functions? Details: "
          ++ e
    | CortexOutcome.otherError _ =>
        "Failed to get description from Snowflake Cortex."

/-- Inserting an index is a permutation of prepending it. -/
theorem insertAsc_perm (key : Nat → Int) (i : Nat) (l : List Nat) :
    List.Perm (insertAsc key i l) (i :: l) := by
  induction l with
  | nil => simp [insertAsc]
  | cons j t ih =>
    by_cases h : key i ≤ key j
    · simp [insertAsc, h]
    · simp only [insertAsc, if_neg h]
      exact (ih.cons j).trans (List.Perm.swap i j t)

/-- The stable ascending sort permutes its input. -/
theorem argsortAux_perm (key : Nat → Int) (l : List Nat) :
    List.Perm (argsortAux key l) l := by
  induction l with
  | nil => simp [argsortAux]
  | cons i t ih => exact (insertAsc_perm key i (argsortAux key t)).trans (ih.cons i)

/-- `argsort` permutes the index range. -/
theorem argsort_perm (key : Nat → Int) (n : Nat) :
    List.Perm (argsort key n) (List.range n) :=
  argsortAux_perm key (List.range n)

/-- `argsort` keeps all `n` indices. -/
theorem argsort_length (key : Nat → Int) (n : Nat) :
    (argsort key n).length = n := by
  rw [(argsort_perm key n).length_eq, List.length_range]

/-- The strict lexicographic order by (key, index) that characterises a
stable ascending argsort. -/
def lexLt (key : Nat → Int) (i j : Nat) : Prop :=
  key i < key j ∨ (key i = key j ∧ i < j)

theorem lexLt_le (key : Nat → Int) {i j : Nat} (h : lexLt key i j) :
    key i ≤ key j := by
  rcases h with h | ⟨h, _⟩
  · exact le_of_lt h
  · exact le_of_eq h

/-- Insertion preserves lex-sortedness when the inserted index is smaller
than every index already present. -/
theorem insertAsc_pairwise (key : Nat → Int) (i : Nat) (l : List Nat)
    (hl : l.Pairwise (lexLt key)) (hi : ∀ j ∈ l, i < j) :
    (insertAsc key i l).Pairwise (lexLt key) := by
  induction l with
  | nil => simp [insertAsc]
  | cons j t ih =>
    rcases List.pairwise_cons.mp hl with ⟨hjt, htp⟩
    by_cases h : key i ≤ key j
    · simp only [insertAsc, if_pos h]
      refine List.pairwise_cons.mpr ⟨?_, hl⟩
      intro x hx
      have hkey : key i ≤ key x := by
        rcases List.mem_cons.mp hx with rfl | hx
        · exact h
        · exact le_trans h (lexLt_le key (hjt x hx))
      rcases lt_or_eq_of_le hkey with hlt | heq
      · exact Or.inl hlt
      · exact Or.inr ⟨heq, hi x hx⟩
    · simp only [insertAsc, if_neg h]
      refine List.pairwise_cons.mpr ⟨?_, ih htp (fun x hx => hi x (List.mem_cons_of_mem j hx))⟩
      intro x hx
      rcases List.mem_cons.mp ((insertAsc_perm key i t).mem_iff.mp hx) with rfl | hx
      · exact Or.inl (lt_of_not_le h)
      · exact hjt x hx

/-- On a strictly increasing index list the stable ascending sort yields a
lex-sorted list. -/
theorem argsortAux_pairwise (key : Nat → Int) (l : List Nat)
    (hl : l.Pairwise (· < ·)) :
    (argsortAux key l).Pairwise (lexLt key) := by
  induction l with
  | nil => simp [argsortAux]
  | cons i t ih =>
    rcases List.pairwise_cons.mp hl with ⟨hit, htp⟩
    refine insertAsc_pairwise key i _ (ih htp) ?_
    intro j hj
    exact hit j ((argsortAux_perm key t).mem_iff.mp hj)

/-- `argsort` is sorted by strictly increasing (key, index): ascending
similarity, ties in ascending index order (stability). -/
theorem argsort_pairwise (key : Nat → Int) (n : Nat) :
    (argsort key n).Pairwise (lexLt key) :=
  argsortAux_pairwise key (List.range n) (List.pairwise_lt_range n)

/-- The candidate index list is sorted by strictly descending
(key, index): descending similarity, ties in descending index order. -/
theorem topIndices_pairwise (key : Nat → Int) (n : Nat) :
    (topIndices key n).Pairwise
      (fun i j => key j < key i ∨ (key j = key i ∧ j < i)) := by
  have h := (argsort_pairwise key n).sublist
    (List.drop_sublist ((argsort key n).length - min 5 n) (argsort key n))
  exact List.pairwise_reverse.mpr h

/-- The candidate index list has exactly `min 5 n` entries. -/
theorem topIndices_length (key : Nat → Int) (n : Nat) :
    (topIndices key n).length = min 5 n := by
  simp only [topIndices, List.length_reverse, List.length_drop, argsort_length]
  omega

/-- Every candidate index is in range. -/
theorem topIndices_mem (key : Nat → Int) (n : Nat) (i : Nat)
    (h : i ∈ topIndices key n) : i < n := by
  have h1 : i ∈ argsort key n :=
    List.mem_of_mem_drop (List.mem_reverse.mp h)
  exact List.mem_range.mp ((argsort_perm key n).mem_iff.mp h1)

/-- The indices cut before re-ranking all have key at most that of every
kept index. -/
theorem topIndices_top (key : Nat → Int) (n : Nat) :
    ∀ i ∈ (argsort key n).take ((argsort key n).length - min 5 n),
      ∀ j ∈ topIndices key n, key i ≤ key j := by
  intro i hi j hj
  have hsplit := List.take_append_drop ((argsort key n).length - min 5 n) (argsort key n)
  have hp : ((argsort key n).take ((argsort key n).length - min 5 n) ++
      (argsort key n).drop ((argsort key n).length - min 5 n)).Pairwise (lexLt key) := by
    rw [hsplit]; exact argsort_pairwise key n
  rcases List.pairwise_append.mp hp with ⟨-, -, hcross⟩
  exact lexLt_le key (hcross i hi j (List.mem_reverse.mp hj))

/-- Descending insertion is a permutation of prepending. -/
theorem insertDesc_perm {α : Type} (key : α → Nat) (a : α) (l : List α) :
    List.Perm (insertDesc key a l) (a :: l) := by
  induction l with
  | nil => simp [insertDesc]
  | cons b t ih =>
    by_cases h : key b ≤ key a
    · simp [insertDesc, h]
    · simp only [insertDesc, if_neg h]
      exact (ih.cons b).trans (List.Perm.swap a b t)

/-- The stable descending sort permutes its input. -/
theorem sortDesc_perm {α : Type} (key : α → Nat) (l : List α) :
    List.Perm (sortDesc key l) l := by
  induction l with
  | nil => simp [sortDesc]
  | cons a t ih => exact (insertDesc_perm key a (sortDesc key t)).trans (ih.cons a)

/-- Descending insertion preserves descending sortedness. -/
theorem insertDesc_pairwise {α : Type} (key : α → Nat) (a : α) (l : List α)
    (hl : l.Pairwise (fun x y => key y ≤ key x)) :
    (insertDesc key a l).Pairwise (fun x y => key y ≤ key x) := by
  induction l with
  | nil => simp [insertDesc]
  | cons b t ih =>
    rcases List.pairwise_cons.mp hl with ⟨hbt, htp⟩
    by_cases h : key b ≤ key a
    · simp only [insertDesc, if_pos h]
      refine List.pairwise_cons.mpr ⟨?_, hl⟩
      intro x hx
      rcases List.mem_cons.mp hx with rfl | hx
      · exact h
      · exact le_trans (hbt x hx) h
    · simp only [insertDesc, if_neg h]
      refine List.pairwise_cons.mpr ⟨?_, ih htp⟩
      intro x hx
      rcases List.mem_cons.mp ((insertDesc_perm key a t).mem_iff.mp hx) with rfl | hx
      · exact le_of_lt (lt_of_not_le h)
      · exact hbt x hx

/-- The stable descending sort is sorted by non-increasing key. -/
theorem sortDesc_pairwise {α : Type} (key : α → Nat) (l : List α) :
    (sortDesc key l).Pairwise (fun x y => key y ≤ key x) := by
  induction l with
  | nil => simp [sortDesc]
  | cons a t ih => exact insertDesc_pairwise key a (sortDesc key t) ih

/-- The head of the stable descending sort has maximal key. -/
theorem sortDesc_head_max {α : Type} (key : α → Nat) (l : List α) (h : α)
    (t : List α) (he : sortDesc key l = h :: t) :
    ∀ x ∈ l, key x ≤ key h := by
  intro x hx
  have hmem : x ∈ h :: t := by
    rw [← he]; exact (sortDesc_perm key l).mem_iff.mpr hx
  rcases List.mem_cons.mp hmem with rfl | hmem
  · exact le_refl _
  · have hp := sortDesc_pairwise key l
    rw [he] at hp
    exact (List.pairwise_cons.mp hp).1 x hmem

/-- Stability of descending insertion: among the elements of any fixed
key, an inserted element of that key goes first and the others keep their
order, because insertion only passes over strictly larger keys. -/
theorem insertDesc_filter {α : Type} (key : α → Nat) (a : α) (l : List α) (k : Nat) :
    (insertDesc key a l).filter (fun x => key x == k) =
      if key a == k then a :: l.filter (fun x => key x == k)
      else l.filter (fun x => key x == k) := by
  induction l with
  | nil =>
    by_cases ha : (key a == k) <;> simp [insertDesc, ha, List.filter]
  | cons b t ih =>
    by_cases h : key b ≤ key a
    · simp only [insertDesc, if_pos h]
      exact List.filter_cons
    · simp only [insertDesc, if_neg h, List.filter_cons, ih]
      by_cases ha : (key a == k)
      · have h2 : key a = k := by simpa using ha
        have hbk : (key b == k) = false := by
          have h1 : key a < key b := lt_of_not_le h
          have : key b ≠ k := by omega
          simpa using this
        simp [ha, hbk]
      · by_cases hb : (key b == k) <;> simp [ha, hb]

/-- Stability of the descending sort: restricted to the elements of any
fixed key, the sorted list and the input list agree. -/
theorem sortDesc_filter {α : Type} (key : α → Nat) (l : List α) (k : Nat) :
    (sortDesc key l).filter (fun x => key x == k) =
      l.filter (fun x => key x == k) := by
  induction l with
  | nil => rfl
  | cons a t ih =>
    rw [sortDesc, insertDesc_filter, List.filter_cons, ih]

/-- An in-range `getD` is a member of the list. -/
theorem getD_mem {α : Type} (l : List α) (i : Nat) (d : α) (h : i < l.length) :
    l.getD i d ∈ l := by
  induction l generalizing i with
  | nil => simp at h
  | cons a t ih =>
    cases i with
    | zero => simp [List.getD]
    | succ m =>
      have : (a :: t).getD (m + 1) d = t.getD m d := rfl
      rw [this]
      exact List.mem_cons_of_mem a (ih m (by simpa using h))

/-- Reading a list back at every index of its range reproduces the list. -/
theorem map_getD_range {α : Type} (l : List α) (d : α) :
    (List.range l.length).map (fun i => l.getD i d) = l := by
  induction l with
  | nil => rfl
  | cons a t ih =>
    rw [List.length_cons, List.range_succ_eq_map, List.map_cons, List.map_map]
    have h1 : ∀ i : Nat, (a :: t).getD (i + 1) d = t.getD i d := fun i => rfl
    have h2 : ((fun i => (a :: t).getD i d) ∘ Nat.succ) = fun i => t.getD i d := by
      funext i
      exact h1 i
    rw [h2, ih]
    rfl

/-- Every candidate schema is one of the chunks. -/
theorem candidateSchemas_mem (sim : String → Int) (chunks : List String)
    (c : String) (h : c ∈ candidateSchemas sim chunks) : c ∈ chunks := by
  rcases List.mem_map.mp h with ⟨i, hi, rfl⟩
  exact getD_mem chunks i "" (topIndices_mem _ _ _ hi)

/-- The candidate list has `min 5 n` entries. -/
theorem candidateSchemas_length (sim : String → Int) (chunks : List String) :
    (candidateSchemas sim chunks).length = min 5 chunks.length := by
  simp [candidateSchemas, topIndices_length]

/-- A non-empty chunk list yields a non-empty candidate list. -/
theorem candidateSchemas_ne_nil (sim : String → Int) (chunks : List String)
    (h : chunks ≠ []) : candidateSchemas sim chunks ≠ [] := by
  intro hc
  have hlen := candidateSchemas_length sim chunks
  rw [hc] at hlen
  have hpos : 0 < chunks.length := List.length_pos.mpr h
  simp at hlen
  omega

/-- With fewer than six chunks the candidate list is a permutation of the
whole chunk list. -/
theorem candidateSchemas_perm (sim : String → Int) (chunks : List String)
    (h : chunks.length ≤ 5) :
    List.Perm (candidateSchemas sim chunks) chunks := by
  have hmin : min 5 chunks.length = chunks.length := by omega
  unfold candidateSchemas topIndices
  rw [argsort_length, hmin, Nat.sub_self, List.drop_zero]
  refine List.Perm.trans
    (((List.reverse_perm _).trans (argsort_perm _ _)).map (fun i => chunks.getD i "")) ?_
  rw [map_getD_range]

/-- `score_schema` with the single keyword list used by `filter_schema`. -/
theorem score_schema_single (s kw : String) :
    score_schema s [kw] = if inStr (pyLower kw) (pyLower s) then 1 else 0 := by
  simp [score_schema, List.foldl]

/-- A single-keyword score is at most one. -/
theorem score_schema_single_le (s kw : String) : score_schema s [kw] ≤ 1 := by
  rw [score_schema_single]
  split <;> simp

/-- `score_schema` counts the matching keywords. -/
theorem score_schema_countP (s : String) (kws : List String) :
    score_schema s kws = kws.countP (fun p => inStr (pyLower p) (pyLower s)) := by
  have h : ∀ (ks : List String) (a : Nat),
      ks.foldl (fun score param =>
        if inStr (pyLower param) (pyLower s) then score + 1 else score) a =
      a + ks.countP (fun p => inStr (pyLower p) (pyLower s)) := by
    intro ks
    induction ks with
    | nil => intro a; simp
    | cons p t ih =>
      intro a
      rw [List.foldl_cons, List.countP_cons]
      by_cases hp : inStr (pyLower p) (pyLower s)
      · simp only [hp, if_true, ih]
        omega
      · simp only [hp, if_false, ih]
        simp [hp]
  simpa [score_schema] using h kws 0

/-- Dropping a matched run twice is the same as once. -/
theorem dropWhile_idem (p : Char → Bool) (l : List Char) :
    (l.dropWhile p).dropWhile p = l.dropWhile p := by
  induction l with
  | nil => rfl
  | cons a t ih =>
    by_cases h : p a
    · rw [List.dropWhile_cons, if_pos h, ih]
    · rw [List.dropWhile_cons, if_neg h, List.dropWhile_cons, if_neg h]

/-- The head surviving a `dropWhile` does not satisfy the predicate. -/
theorem head_dropWhile_false (p : Char → Bool) (l : List Char) (c : Char)
    (h : (l.dropWhile p).head? = some c) : p c = false := by
  induction l with
  | nil => simp [List.dropWhile] at h
  | cons a t ih =>
    by_cases hp : p a
    · rw [List.dropWhile_cons, if_pos hp] at h
      exact ih h
    · rw [List.dropWhile_cons, if_neg hp] at h
      simp only [List.head?_cons, Option.some.injEq] at h
      rw [← h]
      simpa using hp

/-- `dropWhile` produces a suffix. -/
theorem dropWhile_isSuffix (p : Char → Bool) (l : List Char) :
    (l.dropWhile p) <:+ l := by
  induction l with
  | nil => simp
  | cons a t ih =>
    by_cases hp : p a
    · rw [List.dropWhile_cons, if_pos hp]
      exact ih.trans (List.suffix_cons a t)
    · rw [List.dropWhile_cons, if_neg hp]

/-- The reverse of a suffix of `u.reverse` starts `u`. -/
theorem revStartsOfSuffixRev (u v : List Char) (h : v <:+ u.reverse) :
    ∃ t : List Char, v.reverse ++ t = u := by
  rcases h with ⟨t, ht⟩
  refine ⟨t.reverse, ?_⟩
  have h2 := congrArg List.reverse ht
  simpa [List.reverse_append] using h2

/-- Two lists that agree up to a tail have the same head once the shorter
one is non-empty. -/
theorem headEqOfStarts (l₁ l₂ : List Char) (h : ∃ t, l₁ ++ t = l₂)
    (hne : l₁ ≠ []) : l₁.head? = l₂.head? := by
  rcases h with ⟨t, rfl⟩
  cases l₁ with
  | nil => exact absurd rfl hne
  | cons a s => rfl

/-- Python `strip` is idempotent: a stripped string has no leading or
trailing whitespace left to remove. -/
theorem pyStripL_idem (l : List Char) : pyStripL (pyStripL l) = pyStripL l := by
  have h1 : (pyStripL l).dropWhile pyIsSpace = pyStripL l := by
    cases hsv : pyStripL l with
    | nil => rfl
    | cons a s =>
      have hstarts : ∃ t, (pyStripL l) ++ t = l.dropWhile pyIsSpace := by
        refine revStartsOfSuffixRev (l.dropWhile pyIsSpace) _ ?_
        exact dropWhile_isSuffix pyIsSpace (l.dropWhile pyIsSpace).reverse
      have hh : (pyStripL l).head? = (l.dropWhile pyIsSpace).head? :=
        headEqOfStarts _ _ hstarts (by rw [hsv]; simp)
      have ha : pyIsSpace a = false := by
        apply head_dropWhile_false pyIsSpace l
        rw [← hh, hsv]
        rfl
      rw [List.dropWhile_cons, if_neg (by simp [ha])]
  have h2 : (pyStripL l).reverse.dropWhile pyIsSpace = (pyStripL l).reverse := by
    have h3 : (pyStripL l).reverse =
        (l.dropWhile pyIsSpace).reverse.dropWhile pyIsSpace := by
      simp [pyStripL]
    rw [h3, dropWhile_idem]
  show (((pyStripL l).dropWhile pyIsSpace).reverse.dropWhile pyIsSpace).reverse
      = pyStripL l
  rw [h1, h2, List.reverse_reverse]

/-- Python `strip` is idempotent on strings. -/
theorem pyStrip_idem (s : String) : pyStrip (pyStrip s) = pyStrip s := by
  simp [pyStrip, pyStripL_idem]

/-- Every chunk produced by the split-strip-filter pipeline is non-empty
and already stripped. -/
theorem schemaChunks_trimmed (text : String) (c : String)
    (h : c ∈ schemaChunks text) : c ≠ "" ∧ pyStrip c = c := by
  unfold schemaChunks at h
  rcases List.mem_filter.mp h with ⟨hmem, hne⟩
  rcases List.mem_map.mp hmem with ⟨piece, -, rfl⟩
  exact ⟨by simpa using hne, pyStrip_idem piece⟩

/-- Whatever `filter_schema` returns with `ok` is one of the chunks. -/
theorem filter_schema_ok_mem (table_name schema_text : String)
    (sim : String → Int) (r : String)
    (h : filter_schema table_name schema_text sim = Except.ok r) :
    r ∈ schemaChunks schema_text := by
  by_cases he : (schemaChunks schema_text).isEmpty
  · simp [filter_schema, he] at h
  · simp only [filter_schema, he, Bool.false_eq_true, if_false] at h
    cases hh : (rankedSchemas table_name sim (schemaChunks schema_text)).head? with
    | none => rw [hh] at h; simp at h
    | some b =>
      rw [hh] at h
      simp only [Except.ok.injEq] at h
      subst h
      have hb : b ∈ rankedSchemas table_name sim (schemaChunks schema_text) :=
        List.mem_of_mem_head? (by rw [hh]; rfl)
      exact candidateSchemas_mem _ _ _
        ((sortDesc_perm _ _).mem_iff.mp hb)

/-- On a non-empty chunk list `filter_schema` succeeds and returns a
chunk. -/
theorem filter_schema_total (table_name schema_text : String)
    (sim : String → Int) (h : schemaChunks schema_text ≠ []) :
    ∃ r, filter_schema table_name schema_text sim = Except.ok r ∧
      r ∈ schemaChunks schema_text := by
  have hne : rankedSchemas table_name sim (schemaChunks schema_text) ≠ [] := by
    intro h0
    have hp : (rankedSchemas table_name sim (schemaChunks schema_text)).Perm
        (candidateSchemas sim (schemaChunks schema_text)) := sortDesc_perm _ _
    rw [h0] at hp
    exact candidateSchemas_ne_nil sim _ h (List.Perm.eq_nil hp.symm)
  have hie : (schemaChunks schema_text).isEmpty = false := by
    cases hc : schemaChunks schema_text with
    | nil => exact absurd hc h
    | cons a t => rfl
  cases hh : (rankedSchemas table_name sim (schemaChunks schema_text)).head? with
  | none => exact absurd (List.head?_eq_none_iff.mp hh) hne
  | some b =>
    refine ⟨b, ?_, ?_⟩
    · simp [filter_schema, hie, hh]
    · have hb : b ∈ rankedSchemas table_name sim (schemaChunks schema_text) :=
        List.mem_of_mem_head? (by rw [hh]; rfl)
      exact candidateSchemas_mem _ _ _
        ((sortDesc_perm _ _).mem_iff.mp hb)

/-- Claim C1: for every table name, every schema document whose blank-line
split yields at least one trimmed non-empty block, and every similarity
assignment, `filter_schema` succeeds and returns a string that is exactly
one of those blocks, never a truncation, concatenation or any string
outside the block list. -/
theorem C1_returns_one_of_the_blocks (table_name schema_text : String)
    (sim : String → Int) (h : schemaChunks schema_text ≠ []) :
    ∃ r, filter_schema table_name schema_text sim = Except.ok r ∧
      r ∈ schemaChunks schema_text :=
  filter_schema_total table_name schema_text sim h

/-- Witness for C1 on the two-block example document from the spec. -/
theorem C1_witness :
    schemaChunks "CUSTOMERS\ncol: id, name\n\nORDERS\ncol: id, customer_id" ≠ [] ∧
    (∃ r, filter_schema "ORDERS"
        "CUSTOMERS\ncol: id, name\n\nORDERS\ncol: id, customer_id"
        (fun _ => 0) = Except.ok r ∧
      r ∈ schemaChunks "CUSTOMERS\ncol: id, name\n\nORDERS\ncol: id, customer_id") :=
  ⟨by decide, C1_returns_one_of_the_blocks "ORDERS"
    "CUSTOMERS\ncol: id, name\n\nORDERS\ncol: id, customer_id"
    (fun _ => 0) (by decide)⟩

/-- Claim C2, counterexample: two distinct blocks with equal similarity
scores.  The candidate list is `["B", "A"]`: the block appearing later in
the document precedes the earlier one, refuting the claimed
earlier-block-first tie-breaking. -/
theorem C2_counterexample :
    schemaChunks "A\n\nB" = ["A", "B"] ∧
    candidateSchemas (fun _ => 0) (schemaChunks "A\n\nB") = ["B", "A"] :=
  ⟨rfl, rfl⟩

/-- Claim C2 as amended: the candidate index list holds the top
`min 5 n` indices in strictly descending (similarity, index) order —
descending similarity, with equal similarities broken by REVERSE original
block order — and every index cut from the candidate set has similarity at
most that of every kept index. -/
theorem C2_top_candidates_order (key : Nat → Int) (n : Nat) :
    (topIndices key n).Pairwise
      (fun i j => key j < key i ∨ (key j = key i ∧ j < i)) ∧
    (topIndices key n).length = min 5 n ∧
    (∀ i ∈ (argsort key n).take ((argsort key n).length - min 5 n),
      ∀ j ∈ topIndices key n, key i ≤ key j) :=
  ⟨topIndices_pairwise key n, topIndices_length key n, topIndices_top key n⟩

/-- Claim C3, counterexample: six blocks, of which exactly one contains
the table name case-insensitively, but the embedding ranks that block
last: it is cut from the top-5 candidate set and `filter_schema` returns a
different block, refuting selection regardless of similarity ranking. -/
theorem C3_counterexample :
    schemaChunks "A1\n\nA2\n\nA3\n\nA4\n\nA5\n\nTBLX" =
      ["A1", "A2", "A3", "A4", "A5", "TBLX"] ∧
    (∀ c ∈ schemaChunks "A1\n\nA2\n\nA3\n\nA4\n\nA5\n\nTBLX",
      (inStr (pyLower "TBL") (pyLower c) = true ↔ c = "TBLX")) ∧
    filter_schema "TBL" "A1\n\nA2\n\nA3\n\nA4\n\nA5\n\nTBLX"
      (fun s => if s == "TBLX" then (0 : Int) else 1) = Except.ok "A5" ∧
    "A5" ≠ "TBLX" :=
  ⟨rfl, by decide, rfl, by decide⟩

/-- Claim C3 as amended: if exactly one block contains the table name as a
case-insensitive substring and no other block does, and that block is
among the top `min 5 n` semantic candidates, then `filter_schema` returns
that block. -/
theorem C3_unique_keyword_block_wins (table_name schema_text : String)
    (sim : String → Int) (b : String)
    (hb : b ∈ candidateSchemas sim (schemaChunks schema_text))
    (hmatch : inStr (pyLower table_name) (pyLower b) = true)
    (huniq : ∀ c ∈ schemaChunks schema_text,
      inStr (pyLower table_name) (pyLower c) = true → c = b) :
    filter_schema table_name schema_text sim = Except.ok b := by
  have hch : schemaChunks schema_text ≠ [] := by
    intro hc
    rw [hc] at hb
    simp [show candidateSchemas sim [] = [] from rfl] at hb
  have hie : (schemaChunks schema_text).isEmpty = false := by
    cases hc : schemaChunks schema_text with
    | nil => exact absurd hc hch
    | cons a t => rfl
  have hcne : candidateSchemas sim (schemaChunks schema_text) ≠ [] := by
    intro hc
    rw [hc] at hb
    simp at hb
  cases hh : (rankedSchemas table_name sim (schemaChunks schema_text)).head? with
  | none =>
    have hnil := List.head?_eq_none_iff.mp hh
    have hp : (rankedSchemas table_name sim (schemaChunks schema_text)).Perm
        (candidateSchemas sim (schemaChunks schema_text)) := sortDesc_perm _ _
    rw [hnil] at hp
    exact absurd (List.Perm.eq_nil hp.symm) hcne
  | some hd =>
    obtain ⟨tl, htl⟩ : ∃ tl,
        rankedSchemas table_name sim (schemaChunks schema_text) = hd :: tl := by
      cases hc : rankedSchemas table_name sim (schemaChunks schema_text) with
      | nil => rw [hc] at hh; simp at hh
      | cons x xs =>
        rw [hc] at hh
        simp only [List.head?_cons, Option.some.injEq] at hh
        exact ⟨xs, by rw [hh]⟩
    have hmax : ∀ x ∈ candidateSchemas sim (schemaChunks schema_text),
        score_schema x [table_name] ≤ score_schema hd [table_name] :=
      sortDesc_head_max (fun s => score_schema s [table_name]) _ hd tl htl
    have hdmatch : inStr (pyLower table_name) (pyLower hd) = true := by
      have hx := hmax b hb
      rw [score_schema_single, score_schema_single, hmatch] at hx
      by_contra hcon
      have hzero : inStr (pyLower table_name) (pyLower hd) = false := by
        simpa using hcon
      rw [hzero] at hx
      simp at hx
    have hdmem : hd ∈ schemaChunks schema_text := by
      apply candidateSchemas_mem sim _ hd
      have hhd : hd ∈ rankedSchemas table_name sim (schemaChunks schema_text) := by
        rw [htl]
        exact List.mem_cons_self hd tl
      exact (sortDesc_perm (fun s => score_schema s [table_name])
        (candidateSchemas sim (schemaChunks schema_text))).mem_iff.mp hhd
    have hdb : hd = b := huniq hd hdmem hdmatch
    simp [filter_schema, hie, hh, hdb]

/-- Witness for the amended C3 on a two-block document in which the second
block uniquely contains the table name. -/
theorem C3_witness :
    ("TBL" ∈ candidateSchemas (fun _ => 0) (schemaChunks "AAA\n\nTBL")) ∧
    inStr (pyLower "TBL") (pyLower "TBL") = true ∧
    (∀ c ∈ schemaChunks "AAA\n\nTBL",
      inStr (pyLower "TBL") (pyLower c) = true → c = "TBL") ∧
    filter_schema "TBL" "AAA\n\nTBL" (fun _ => 0) = Except.ok "TBL" :=
  ⟨by decide, by decide, by decide,
    C3_unique_keyword_block_wins "TBL" "AAA\n\nTBL" (fun _ => 0) "TBL"
      (by decide) (by decide) (by decide)⟩

/-- Claim C4, counterexample: the DUPLICATE_COUNT template of
`get_dmf_functions` contains two occurrences of the column placeholder,
not at most one. -/
theorem C4_counterexample :
    ("DUPLICATE_COUNT", "COUNT({column}) - COUNT(DISTINCT {column})") ∈
      get_dmf_functions ∧
    countOcc "{column}" "COUNT({column}) - COUNT(DISTINCT {column})" = 2 :=
  ⟨by decide, by decide⟩

/-- Claim C4 as amended: every template value of `get_dmf_functions`
contains at most two occurrences of the column placeholder, and every
template other than DUPLICATE_COUNT contains at most one. -/
theorem C4_placeholder_occurrences (p : String × String)
    (hp : p ∈ get_dmf_functions) :
    countOcc "{column}" p.2 ≤ 2 ∧
      (p.1 = "DUPLICATE_COUNT" ∨ countOcc "{column}" p.2 ≤ 1) := by
  fin_cases hp <;> exact ⟨by decide, by decide⟩

/-- Witness for the amended C4 at the ROW_COUNT entry. -/
theorem C4_witness :
    countOcc "{column}" "COUNT(*)" ≤ 2 ∧
      ("ROW_COUNT" = "DUPLICATE_COUNT" ∨ countOcc "{column}" "COUNT(*)" ≤ 1) :=
  C4_placeholder_occurrences ("ROW_COUNT", "COUNT(*)") (by decide)

/-- Claim C5: the re-ranking stage permutes the candidate list, sorts it
by non-increasing `score_schema` value, is stable (for each score value
the re-ranked list and the candidate list list the same blocks in the
same order), and `score_schema` adds one for each keyword appearing
case-insensitively as a substring of the block. -/
theorem C5_rerank_stable_descending (table_name : String) (sim : String → Int)
    (chunks : List String) :
    List.Perm (rankedSchemas table_name sim chunks) (candidateSchemas sim chunks) ∧
    (rankedSchemas table_name sim chunks).Pairwise
      (fun a b => score_schema b [table_name] ≤ score_schema a [table_name]) ∧
    (∀ k : Nat,
      (rankedSchemas table_name sim chunks).filter
          (fun s => score_schema s [table_name] == k) =
        (candidateSchemas sim chunks).filter
          (fun s => score_schema s [table_name] == k)) ∧
    (∀ (s : String) (kws : List String),
      score_schema s kws = kws.countP (fun p => inStr (pyLower p) (pyLower s))) :=
  ⟨sortDesc_perm _ _, sortDesc_pairwise _ _,
    fun k => sortDesc_filter _ _ k, score_schema_countP⟩

/-- Claim C6: when the blank-line split of the schema document leaves no
non-empty block after trimming, `filter_schema` fails with the
empty/malformed-schema error and never returns a string. -/
theorem C6_empty_document_errors (table_name schema_text : String)
    (sim : String → Int) (h : schemaChunks schema_text = []) :
    filter_schema table_name schema_text sim =
      Except.error "Schema text is empty or not formatted correctly with [SEP]." := by
  simp [filter_schema, h]

/-- Witness for C6 on a document consisting only of whitespace. -/
theorem C6_witness :
    filter_schema "T" "  \n \n  " (fun _ => 0) =
      Except.error "Schema text is empty or not formatted correctly with [SEP]." :=
  C6_empty_document_errors "T" "  \n \n  " (fun _ => 0) (by decide)

/-- Claim C7: substituting column EMAIL into the NULL_COUNT template the
way the dashboard controller does (double-quoting the column name before
formatting) yields exactly the expected SQL fragment. -/
theorem C7_null_count_email :
    (dmfLookup "NULL_COUNT").map (fun t => buildDmfFragment t "EMAIL") =
      some "COUNT_IF(\"EMAIL\" IS NULL)" := rfl

/-- Claim C8: when the document splits into fewer than five blocks, the
candidate set built before keyword re-ranking is the entire block set. -/
theorem C8_few_blocks_all_candidates (sim : String → Int) (schema_text : String)
    (h : (schemaChunks schema_text).length < 5) :
    List.Perm (candidateSchemas sim (schemaChunks schema_text))
      (schemaChunks schema_text) :=
  candidateSchemas_perm sim (schemaChunks schema_text) (le_of_lt h)

/-- Witness for C8 on a two-block document. -/
theorem C8_witness :
    List.Perm (candidateSchemas (fun _ => 0) (schemaChunks "A\n\nB"))
      (schemaChunks "A\n\nB") :=
  C8_few_blocks_all_candidates (fun _ => 0) "A\n\nB" (by decide)

/-- Claim C9: with a connection, `describe_with_cortex` returns the first
result cell when the completion call returns a row, and a warehouse
ProgrammingError produces the USAGE-permission message, which differs from
the generic failure message produced by every other exception, whatever
the attached detail strings are. -/
theorem C9_outcome_messages :
    (∀ (cell : String) (rest : List String),
      describe_with_cortex true (CortexOutcome.success (some (cell :: rest))) = cell) ∧
    (∀ e e2 : String,
      describe_with_cortex true (CortexOutcome.programmingError e) ≠
        describe_with_cortex true (CortexOutcome.otherError e2)) := by
  constructor
  · intro cell rest
    rfl
  · intro e e2 h
    have h1 : describe_with_cortex true (CortexOutcome.programmingError e) =
        "Error executing query. Does the role have USAGE on the SNOWFLAKE.CORTEX functions? Details: "
          ++ e := rfl
    have h2 : describe_with_cortex true (CortexOutcome.otherError e2) =
        "Failed to get description from Snowflake Cortex." := rfl
    rw [h1, h2] at h
    have hd := congrArg (fun s => s.data.head?) h
    simp only [String.data_append] at hd
    have hE : ("Error executing query. Does the role have USAGE on the SNOWFLAKE.CORTEX functions? Details: ".data
        ++ e.data).head? = some 'E' := rfl
    have hF : ("Failed to get description from Snowflake Cortex.".data).head? =
        some 'F' := rfl
    rw [hE, hF] at hd
    exact absurd hd (by decide)

/-- Claim C10: whenever `filter_schema` succeeds, the returned string is
non-empty and carries no leading or trailing whitespace: stripping it
again changes nothing, so the caller receives the trimmed block. -/
theorem C10_result_nonempty_trimmed (table_name schema_text : String)
    (sim : String → Int) (r : String)
    (h : filter_schema table_name schema_text sim = Except.ok r) :
    r ≠ "" ∧ pyStrip r = r :=
  schemaChunks_trimmed schema_text r
    (filter_schema_ok_mem table_name schema_text sim r h)

/-- Witness for C10 on a document whose blocks carry surrounding
whitespace. -/
theorem C10_witness : ("world" : String) ≠ "" ∧ pyStrip "world" = "world" :=
  C10_result_nonempty_trimmed "T" "  hello \n\n world" (fun _ => 0) "world" rfl

end DQTool
